import Mathlib

/-!
Verification development for the resume screening application
(single source file `Resume4.py`).

The text-processing core of the program is embedded shallowly:
resume text, job-description text and skills are lists of ASCII code
points (`List Nat`), mirroring the Python strings the program operates
on.  The regular-expression operations the program performs are all of
the restricted shape `\b<escaped literal>\b` (plus two fixed `findall`
patterns for e-mail and phone extraction), so they are embedded as
direct scanning functions whose semantics follow the Python `re`
engine on those patterns: case-insensitive literal comparison between
word boundaries, leftmost match first, greedy quantifiers with
backtracking where the pattern needs it.
-/

/-- Code points of a string literal; used to write concrete inputs. -/
def strCodes (s : String) : List Nat := s.data.map Char.toNat

/-- ASCII lower-casing of one code point, the effect of `str.lower`
and of `re.IGNORECASE` on ASCII text. -/
def lowN (n : Nat) : Nat := if 65 ≤ n ∧ n ≤ 90 then n + 32 else n

/-- ASCII lower-casing of a whole string (`str.lower`). -/
def lowerStr (s : List Nat) : List Nat := s.map lowN

/-- Word character for the regex `\b` assertion: `[A-Za-z0-9_]`
(the ASCII part of `\w`). -/
def isWordCode (n : Nat) : Bool :=
  (48 ≤ n && n ≤ 57) || (65 ≤ n && n ≤ 90) || (97 ≤ n && n ≤ 122) || n == 95

/-- The character of `t` at index `i`, tested for word-ness;
positions outside the text count as non-word. -/
def wordAt (t : List Nat) (i : Nat) : Bool :=
  match t.get? i with
  | some c => isWordCode c
  | none => false

/-- Word-ness of the character just before position `i`
(non-word at the start of the text). -/
def prevWord (t : List Nat) : Nat → Bool
  | 0 => false
  | Nat.succ i => wordAt t i

/-- The `\b` assertion of the regex engine at position `i` of `t`:
exactly one of the two surrounding characters is a word character. -/
def boundaryAt (t : List Nat) (i : Nat) : Bool := prevWord t i != wordAt t i

/-- Case-insensitive test that `s` is a literal prefix of `u`. -/
def ciStarts : List Nat → List Nat → Bool
  | [], _ => true
  | _ :: _, [] => false
  | a :: s, b :: u => (lowN a == lowN b) && ciStarts s u

/-- Match of the pattern `\b<literal s>\b` (case-insensitive) at
position `i` of text `t`. -/
def wbMatchAt (t s : List Nat) (i : Nat) : Bool :=
  boundaryAt t i && ciStarts s (t.drop i) && boundaryAt t (i + s.length)

/-- `re.search` of the pattern `\b<re.escape(s)>\b` with
`re.IGNORECASE` on text `t`: some position of `t` matches. -/
def wbSearch (t s : List Nat) : Bool :=
  (List.range (t.length + 1)).any (fun i => wbMatchAt t s i)

/-- Declarative reading of a case-insensitive, word-boundary-delimited
literal occurrence of `s` in `t`: at some position `i` the next
`s.length` characters of `t` are, up to ASCII case, exactly `s`, and
both ends of that span lie on a word boundary. -/
def OccursWB (t s : List Nat) : Prop :=
  ∃ i, i + s.length ≤ t.length
    ∧ lowerStr (List.take s.length (List.drop i t)) = lowerStr s
    ∧ boundaryAt t i = true ∧ boundaryAt t (i + s.length) = true

/-- Embedding of `score_resume`: the number of skills with a
word-boundary, case-insensitive occurrence in the resume text, over
the number of skills, times 100; zero for the empty skill list. -/
def score_resume (resume_text : List Nat) (skills : List (List Nat)) : ℚ :=
  if skills.isEmpty then 0
  else (List.countP (fun skill => wbSearch resume_text skill) skills : ℚ)
        / (skills.length : ℚ) * 100

/-- Embedding of the `matched_skills` comprehension of the main flow:
the skills of the list that occur in the resume text. -/
def matched_skills (resume_text : List Nat) (skills : List (List Nat)) : List (List Nat) :=
  skills.filter (fun s => wbSearch resume_text s)

/-- Opening highlight marker inserted by `highlight_text`. -/
def markPre : List Nat :=
  strCodes "<mark style=\x27background:#fee2e2; padding:0.1rem 0.2rem; border-radius:0.2rem;\x27>"

/-- Closing highlight marker inserted by `highlight_text`. -/
def markPost : List Nat := strCodes "</mark>"

/-- Stable insertion: the inserted element goes before the first
element of no greater length.  The sorted tail holds elements that
come later in the original list, so the inserted element precedes the
equal-length ones among them, matching the placement of the stable
Python sorted with reverse length key. -/
def insertLenDesc (x : List Nat) : List (List Nat) → List (List Nat)
  | [] => [x]
  | y :: ys => if y.length ≤ x.length then x :: y :: ys else y :: insertLenDesc x ys

/-- Python `sorted(skills, key=len, reverse=True)`: a stable sort by
descending length. -/
def sortLenDesc : List (List Nat) → List (List Nat)
  | [] => []
  | x :: xs => insertLenDesc x (sortLenDesc xs)

example : sortLenDesc [[1, 2], [3, 4]] = [[1, 2], [3, 4]] := by decide
example : sortLenDesc [[1], [2, 3], [4], [5, 6, 7]] = [[5, 6, 7], [2, 3], [1], [4]] := by decide

/-- Scanning core of `re.sub` for the pattern `\b(<literal s>)\b`:
from position `i` of `t`, copy characters until a match position,
wrap the matched span in the two markers, and resume after the
match.  `fuel` bounds the recursion; the wrapper supplies enough
fuel for the whole text. -/
def subScan (t s pre post : List Nat) : Nat → Nat → List Nat
  | 0, _ => []
  | Nat.succ fuel, i =>
    if h : i < t.length then
      if wbMatchAt t s i then
        pre ++ List.take s.length (List.drop i t) ++ post
          ++ subScan t s pre post fuel (i + Nat.max 1 s.length)
      else t.get ⟨i, h⟩ :: subScan t s pre post fuel (i + 1)
    else []

/-- One `re.sub` call of `highlight_text` (case-insensitive
word-boundary literal pattern, group 1 back-reference keeps the
original span).  The empty pattern is never produced by the program
(skills have length above 1); it is embedded as the identity. -/
def re_sub (s pre post t : List Nat) : List Nat :=
  if s.isEmpty then t else subScan t s pre post t.length 0

/-- Embedding of `highlight_text`: substitute each skill, longest
first, each substitution operating on the previous result. -/
def highlight_text (text : List Nat) (skills : List (List Nat)) : List Nat :=
  (sortLenDesc skills).foldl (fun t s => re_sub s markPre markPost t) text

/-- Part-of-speech tag of a token, as far as `extract_skills`
distinguishes them. -/
inductive Pos where
  | propn
  | noun
  | other
deriving DecidableEq, Repr

/-- A token of the linguistic-annotation oracle: its text and its
part-of-speech tag. -/
structure SpacyTok where
  text : List Nat
  pos : Pos
deriving DecidableEq, Repr

/-- Output of the linguistic-annotation oracle on one input text:
the noun-phrase chunks and the individual tokens. -/
structure SpacyDoc where
  noun_chunks : List (List Nat)
  toks : List SpacyTok
deriving DecidableEq, Repr

/-- Embedding of `extract_skills`, with the `nlp` call abstracted as
the oracle document: lowercased noun chunks of length above 1, then
lowercased proper-noun and noun tokens of length above 1, collected
into a set (embedded as first-occurrence deduplication; the Python
`list(set(...))` guarantees no order). -/
def extract_skills (doc : SpacyDoc) : List (List Nat) :=
  (((doc.noun_chunks.filter (fun c => 1 < c.length)).map lowerStr)
    ++ ((doc.toks.filter
          (fun tk => (tk.pos == Pos.propn || tk.pos == Pos.noun) && 1 < tk.text.length)).map
        (fun tk => lowerStr tk.text))).dedup

/-- The sentinel string returned by both extractors. -/
def notFound : List Nat := strCodes "Not found"

/-- Character class `[a-zA-Z0-9._%+-]` of the local part of the
e-mail pattern. -/
def localCode (n : Nat) : Bool :=
  (48 ≤ n && n ≤ 57) || (65 ≤ n && n ≤ 90) || (97 ≤ n && n ≤ 122)
    || n == 46 || n == 95 || n == 37 || n == 43 || n == 45

/-- Character class `[a-zA-Z0-9.-]` of the domain part of the e-mail
pattern. -/
def domainCode (n : Nat) : Bool :=
  (48 ≤ n && n ≤ 57) || (65 ≤ n && n ≤ 90) || (97 ≤ n && n ≤ 122)
    || n == 46 || n == 45

/-- Character class `[a-zA-Z]` of the top-level segment. -/
def letterCode (n : Nat) : Bool := (65 ≤ n && n ≤ 90) || (97 ≤ n && n ≤ 122)

/-- ASCII digit, the class `\d` on ASCII text. -/
def digitCode (n : Nat) : Bool := 48 ≤ n && n ≤ 57

/-- Length of the maximal run of characters satisfying `p` at the
head of the list. -/
def runLen (p : Nat → Bool) : List Nat → Nat
  | [] => 0
  | c :: t => if p c then runLen p t + 1 else 0

/-- Head of the list is the code `c`. -/
def headIs (c : Nat) : List Nat → Bool
  | x :: _ => x == c
  | [] => false

/-- Backtracking of the greedy `[a-zA-Z0-9.-]+` of the e-mail
pattern: try the domain length `m`, largest first, and demand that a
dot and at least two letters follow; return the length matched in
`v` (domain, dot and greedy top-level letters). -/
def emailTail (v : List Nat) : Nat → Option Nat
  | 0 => none
  | Nat.succ m =>
    if headIs 46 (List.drop (Nat.succ m) v) = true
        ∧ 2 ≤ runLen letterCode (List.drop (Nat.succ m + 1) v) then
      some (Nat.succ m + 1 + runLen letterCode (List.drop (Nat.succ m + 1) v))
    else emailTail v m

/-- Match of the e-mail pattern
`[a-zA-Z0-9._%+-]+@[a-zA-Z0-9.-]+\.[a-zA-Z]{2,}` anchored at the head
of `u`, returning the matched length.  The greedy local part cannot
backtrack because `@` is not a local character. -/
def emailMatchLen (u : List Nat) : Option Nat :=
  if runLen localCode u = 0 then none
  else if headIs 64 (List.drop (runLen localCode u) u) then
    (emailTail (List.drop (runLen localCode u + 1) u)
        (runLen domainCode (List.drop (runLen localCode u + 1) u))).map
      (fun n => runLen localCode u + 1 + n)
  else none

/-- Leftmost-first scan of `re.findall` restricted to the first
match: try the anchored matcher at each position in order and return
the matched substring. -/
def firstMatch (f : List Nat → Option Nat) : List Nat → Option (List Nat)
  | [] => none
  | c :: t =>
    match f (c :: t) with
    | some n => some (List.take n (c :: t))
    | none => firstMatch f t

/-- Embedding of `extract_email`: first e-mail match of the text, or
the sentinel. -/
def extract_email (t : List Nat) : List Nat :=
  (firstMatch emailMatchLen t).getD notFound

/-- Declarative e-mail shape of the pattern
`[a-zA-Z0-9._%+-]+@[a-zA-Z0-9.-]+\.[a-zA-Z]{2,}`: a non-empty local
part, `@`, a non-empty domain part, a dot and a top-level segment of
at least two letters. -/
def IsEmail (u : List Nat) : Prop :=
  ∃ a b c, u = a ++ 64 :: (b ++ 46 :: c)
    ∧ a ≠ [] ∧ (∀ x ∈ a, localCode x = true)
    ∧ b ≠ [] ∧ (∀ x ∈ b, domainCode x = true)
    ∧ 2 ≤ c.length ∧ (∀ x ∈ c, letterCode x = true)

/-- Character class `[\d\s-]` of the middle of the phone pattern
(ASCII whitespace). -/
def phoneCode (n : Nat) : Bool :=
  digitCode n || n == 32 || n == 9 || n == 10 || n == 13 || n == 11 || n == 12 || n == 45

/-- Head of the list is an ASCII digit. -/
def headDigit : List Nat → Bool
  | c :: _ => digitCode c
  | [] => false

/-- Backtracking of the greedy `[\d\s-]{7,}` of the phone pattern:
try the middle length `k`, largest first, and demand a final digit;
return the length matched in `r` (middle plus final digit). -/
def phoneTail (r : List Nat) : Nat → Option Nat
  | 0 => none
  | Nat.succ k =>
    if 7 ≤ Nat.succ k ∧ headDigit (List.drop (Nat.succ k) r) = true then
      some (Nat.succ k + 1)
    else phoneTail r k

/-- Match of `\d[\d\s-]{7,}\d` anchored at the head of `w`,
returning the matched length. -/
def phoneCore (w : List Nat) : Option Nat :=
  if headDigit w then
    (phoneTail (List.drop 1 w) (runLen phoneCode (List.drop 1 w))).map (fun n => n + 1)
  else none

/-- Match of the phone pattern `\+?\d[\d\s-]{7,}\d` anchored at the
head of `u`.  When the head is `+` the optional sign is consumed;
retrying without it cannot succeed because `+` is not a digit. -/
def phoneMatchLen (u : List Nat) : Option Nat :=
  if headIs 43 u then (phoneCore (List.drop 1 u)).map (fun n => n + 1) else phoneCore u

/-- Embedding of `extract_phone`: first phone match of the text, or
the sentinel. -/
def extract_phone (t : List Nat) : List Nat :=
  (firstMatch phoneMatchLen t).getD notFound

/-- Declarative phone shape of the pattern `\+?\d[\d\s-]{7,}\d`: an
optional leading plus, then a digit, at least seven digit, space or
hyphen characters, and a final digit. -/
def IsPhone (u : List Nat) : Prop :=
  ∃ p x m y, u = p ++ x :: (m ++ [y])
    ∧ (p = [] ∨ p = [43]) ∧ digitCode x = true ∧ digitCode y = true
    ∧ 7 ≤ m.length ∧ (∀ c ∈ m, phoneCode c = true)

/-- The characters escaped by Python `re.escape` (the special
characters map of the `re` module): parentheses, brackets, braces,
quantifier and anchor characters, backslash, dot, ampersand, tilde,
hash and ASCII whitespace. -/
def pySpecial (n : Nat) : Bool :=
  n == 40 || n == 41 || n == 91 || n == 93 || n == 123 || n == 125
    || n == 63 || n == 42 || n == 43 || n == 45 || n == 124 || n == 94
    || n == 36 || n == 92 || n == 46 || n == 38 || n == 126 || n == 35
    || n == 32 || n == 9 || n == 10 || n == 13 || n == 11 || n == 12

/-- Embedding of `re.escape`: prepend a backslash to every special
character. -/
def reEscape (s : List Nat) : List Nat :=
  s.flatMap (fun c => if pySpecial c then [92, c] else [c])

/-- Token of the compiled form of the patterns the program builds:
a literal character, the word-boundary assertion, or a group
delimiter. -/
inductive RTok where
  | lit (c : Nat)
  | wb
  | gopen
  | gclose
deriving DecidableEq, Repr

/-- Characters that would be interpreted as pattern syntax when they
appear unescaped. -/
def metaCode (n : Nat) : Bool :=
  n == 46 || n == 94 || n == 36 || n == 42 || n == 43 || n == 63
    || n == 123 || n == 125 || n == 91 || n == 93 || n == 124

/-- Compilation of the fragment of regex syntax the program can
produce: `\b`, escaped literals, group parentheses and plain
non-special characters.  Unsupported escapes and unescaped special
characters are compilation failures. -/
def parseRegex : List Nat → Option (List RTok)
  | [] => some []
  | c :: r =>
    if c = 92 then
      match r with
      | [] => none
      | d :: r2 =>
        if d = 98 then (parseRegex r2).map (fun ts => RTok.wb :: ts)
        else if isWordCode d then none
        else (parseRegex r2).map (fun ts => RTok.lit d :: ts)
    else if c = 40 then (parseRegex r).map (fun ts => RTok.gopen :: ts)
    else if c = 41 then (parseRegex r).map (fun ts => RTok.gclose :: ts)
    else if metaCode c then none
    else (parseRegex r).map (fun ts => RTok.lit c :: ts)

/-- Case-insensitive execution of a compiled token list at position
`i` of `t`: literals consume one matching character, assertions and
group delimiters consume nothing. -/
def tokMatchAt (t : List Nat) : Nat → List RTok → Bool
  | _, [] => true
  | i, RTok.wb :: ts => boundaryAt t i && tokMatchAt t i ts
  | i, RTok.gopen :: ts => tokMatchAt t i ts
  | i, RTok.gclose :: ts => tokMatchAt t i ts
  | i, RTok.lit c :: ts =>
    match t.get? i with
    | some b => (lowN c == lowN b) && tokMatchAt t (i + 1) ts
    | none => false

/-- Search of a compiled token list over every position of `t`. -/
def tokSearch (t : List Nat) (ts : List RTok) : Bool :=
  (List.range (t.length + 1)).any (fun i => tokMatchAt t i ts)

/-- The pattern text built by `score_resume` and by the
`matched_skills` comprehension. -/
def scorePattern (s : List Nat) : List Nat := [92, 98] ++ reEscape s ++ [92, 98]

/-- The pattern text built by `highlight_text` (with the group used
by the back-reference). -/
def highlightPattern (s : List Nat) : List Nat :=
  [92, 98, 40] ++ reEscape s ++ [41, 92, 98]

example : wbSearch (strCodes "Experienced in Python and SQL") (strCodes "python") = true := by decide
example : wbSearch (strCodes "Experienced in Python and SQL") (strCodes "project management") = false := by decide
example : extract_email (strCodes "mail me at a@b.com now") = strCodes "a@b.com" := by decide
example : extract_email (strCodes "nothing here") = notFound := by decide
example : extract_phone (strCodes "call +1 555-123-4567 ok") = strCodes "+1 555-123-4567" := by decide
example : extract_phone (strCodes "no digits") = notFound := by decide
example : extract_phone (strCodes "12 34-56 78") = strCodes "12 34-56 78" := by decide
example : matched_skills (strCodes "Experienced in Python and SQL")
    [strCodes "python", strCodes "sql", strCodes "project management"]
    = [strCodes "python", strCodes "sql"] := by decide

example : parseRegex (scorePattern (strCodes "c++"))
    = some [RTok.wb, RTok.lit 99, RTok.lit 43, RTok.lit 43, RTok.wb] := by decide
example : parseRegex (highlightPattern (strCodes "node.js"))
    = some [RTok.wb, RTok.gopen, RTok.lit 110, RTok.lit 111, RTok.lit 100, RTok.lit 101,
        RTok.lit 46, RTok.lit 106, RTok.lit 115, RTok.gclose, RTok.wb] := by decide

/-! ## Bridge between the operational matcher and the declarative occurrence -/

theorem ciStarts_iff (s : List Nat) : ∀ u : List Nat,
    ciStarts s u = true ↔ s.length ≤ u.length ∧ lowerStr (List.take s.length u) = lowerStr s := by
  induction s with
  | nil => intro u; simp [ciStarts, lowerStr]
  | cons a s ih =>
    intro u
    cases u with
    | nil => simp [ciStarts, lowerStr]
    | cons b u =>
      simp only [ciStarts, Bool.and_eq_true, beq_iff_eq, ih u, List.length_cons,
        Nat.succ_le_succ_iff, List.take_succ_cons, lowerStr, List.map_cons, List.cons.injEq]
      constructor
      · rintro ⟨h1, h2, h3⟩
        exact ⟨h2, h1.symm, h3⟩
      · rintro ⟨h1, h2, h3⟩
        exact ⟨h2.symm, h1, h3⟩

theorem wbSearch_iff (t s : List Nat) : wbSearch t s = true ↔ OccursWB t s := by
  unfold wbSearch OccursWB
  rw [List.any_eq_true]
  constructor
  · rintro ⟨i, hi, hm⟩
    rw [List.mem_range] at hi
    unfold wbMatchAt at hm
    simp only [Bool.and_eq_true] at hm
    obtain ⟨⟨hb1, hp⟩, hb2⟩ := hm
    rw [ciStarts_iff] at hp
    obtain ⟨hlen, heq⟩ := hp
    rw [List.length_drop] at hlen
    exact ⟨i, by omega, heq, hb1, hb2⟩
  · rintro ⟨i, hle, heq, hb1, hb2⟩
    refine ⟨i, List.mem_range.mpr (by omega), ?_⟩
    unfold wbMatchAt
    simp only [Bool.and_eq_true]
    refine ⟨⟨hb1, ?_⟩, hb2⟩
    rw [ciStarts_iff]
    rw [List.length_drop]
    exact ⟨by omega, heq⟩

instance (t s : List Nat) : Decidable (OccursWB t s) :=
  decidable_of_iff (wbSearch t s = true) (wbSearch_iff t s)

theorem decide_occurs (t s : List Nat) : decide (OccursWB t s) = wbSearch t s := by
  by_cases h : OccursWB t s
  · rw [decide_eq_true h, (wbSearch_iff t s).mpr h]
  · rw [decide_eq_false h]
    cases hw : wbSearch t s
    · rfl
    · exact absurd ((wbSearch_iff t s).mp hw) h

theorem countP_occurs (t : List Nat) (skills : List (List Nat)) :
    List.countP (fun s => decide (OccursWB t s)) skills
      = List.countP (fun s => wbSearch t s) skills := by
  induction skills with
  | nil => rfl
  | cons x xs ih => simp [List.countP_cons, ih, decide_occurs]

/-! ## Claims about scoring and matched skills -/

/-- Claim C1: for every resume text T and skill list S, `score_resume`
returns (number of skills of S with a case-insensitive,
word-boundary-delimited literal occurrence in T) / (length of S) * 100,
and returns 0 when S is empty. -/
theorem C1_score_resume_formula (t : List Nat) (skills : List (List Nat)) :
    (skills = [] → score_resume t skills = 0)
    ∧ (skills ≠ [] →
        score_resume t skills
          = (List.countP (fun s => decide (OccursWB t s)) skills : ℚ)
              / (skills.length : ℚ) * 100) := by
  constructor
  · rintro rfl
    rfl
  · intro hne
    unfold score_resume
    rw [if_neg (by simpa [List.isEmpty_iff] using hne), countP_occurs]

theorem C1_score_resume_formula_witness :
    score_resume (strCodes "anything") [] = 0
    ∧ score_resume (strCodes "Experienced in Python and SQL")
          [strCodes "python", strCodes "sql", strCodes "project management"]
        = (List.countP
              (fun s => decide (OccursWB (strCodes "Experienced in Python and SQL") s))
              [strCodes "python", strCodes "sql", strCodes "project management"] : ℚ)
            / (3 : ℚ) * 100 :=
  ⟨(C1_score_resume_formula (strCodes "anything") []).1 rfl,
    (C1_score_resume_formula (strCodes "Experienced in Python and SQL")
        [strCodes "python", strCodes "sql", strCodes "project management"]).2 (by decide)⟩

/-- Claim C2: the matched-skills subset computed for a resume text and
a skill list is a subset of that skill list: every element of the
matched list is an element of the skill list it was filtered from. -/
theorem C2_matched_subset (t : List Nat) (skills : List (List Nat)) :
    ∀ s ∈ matched_skills t skills, s ∈ skills := by
  intro s hs
  exact List.filter_subset' skills hs

theorem C2_matched_subset_witness :
    strCodes "python" ∈ [strCodes "python", strCodes "sql", strCodes "project management"] :=
  C2_matched_subset (strCodes "Experienced in Python and SQL")
    [strCodes "python", strCodes "sql", strCodes "project management"]
    (strCodes "python") (by decide)

/-- Claim C5: for every non-empty skill list S and resume text T, if
every skill of S occurs in T as a case-insensitive whole-word match,
then `score_resume` returns 100. -/
theorem C5_full_match_score (t : List Nat) (skills : List (List Nat))
    (hne : skills ≠ []) (hall : ∀ s ∈ skills, OccursWB t s) :
    score_resume t skills = 100 := by
  have h1 : List.countP (fun s => wbSearch t s) skills = skills.length := by
    rw [List.countP_eq_length]
    intro s hs
    exact (wbSearch_iff t s).mpr (hall s hs)
  have h2 : (skills.length : ℚ) ≠ 0 := by
    have := List.length_pos.mpr hne
    exact_mod_cast Nat.pos_iff_ne_zero.mp this
  unfold score_resume
  rw [if_neg (by simpa [List.isEmpty_iff] using hne), h1, div_self h2, one_mul]

theorem C5_full_match_score_witness :
    score_resume (strCodes "a Python and SQL developer") [strCodes "python", strCodes "sql"]
      = 100 :=
  C5_full_match_score (strCodes "a Python and SQL developer")
    [strCodes "python", strCodes "sql"] (by decide)
    (fun s hs => by
      rcases (by simpa using hs : s = strCodes "python" ∨ s = strCodes "sql") with rfl | rfl
      · exact (wbSearch_iff _ _).mp (by decide)
      · exact (wbSearch_iff _ _).mp (by decide))

/-- Claim C6: on resume text "Experienced in Python and SQL" and the
skill list ["python", "sql", "project management"], `score_resume`
returns 2/3 of 100 and the matched-skills list is exactly
["python", "sql"]. -/
theorem C6_end_to_end_example :
    score_resume (strCodes "Experienced in Python and SQL")
        [strCodes "python", strCodes "sql", strCodes "project management"] = 200 / 3
    ∧ matched_skills (strCodes "Experienced in Python and SQL")
        [strCodes "python", strCodes "sql", strCodes "project management"]
      = [strCodes "python", strCodes "sql"] := by
  constructor
  · have hc : List.countP
        (fun skill => wbSearch (strCodes "Experienced in Python and SQL") skill)
        [strCodes "python", strCodes "sql", strCodes "project management"] = 2 := by decide
    unfold score_resume
    rw [if_neg (by decide), hc]
    norm_num
  · decide

/-- Claim C10: the score and the independently recomputed matched
list agree: for a non-empty skill list,
`score_resume` = 100 × (length of `matched_skills`) / (length of the
skill list), and the score always lies in [0, 100]. -/
theorem C10_score_matched_consistent (t : List Nat) (skills : List (List Nat)) :
    (skills ≠ [] →
      score_resume t skills
        = 100 * ((matched_skills t skills).length : ℚ) / (skills.length : ℚ))
    ∧ 0 ≤ score_resume t skills ∧ score_resume t skills ≤ 100 := by
  have hcount : List.countP (fun s => wbSearch t s) skills
      = (matched_skills t skills).length := by
    rw [matched_skills, List.countP_eq_length_filter]
  refine ⟨?_, ?_, ?_⟩
  · intro hne
    unfold score_resume
    rw [if_neg (by simpa [List.isEmpty_iff] using hne), hcount]
    ring
  · unfold score_resume
    split_ifs with h
    · norm_num
    · positivity
  · unfold score_resume
    split_ifs with h
    · norm_num
    · have hne : skills ≠ [] := by simpa [List.isEmpty_iff] using h
      have hpos : (0 : ℚ) < (skills.length : ℚ) := by
        exact_mod_cast List.length_pos.mpr hne
      have hle : (List.countP (fun s => wbSearch t s) skills : ℚ) ≤ (skills.length : ℚ) := by
        exact_mod_cast List.countP_le_length _
      have : (List.countP (fun s => wbSearch t s) skills : ℚ) / (skills.length : ℚ) ≤ 1 :=
        (div_le_one hpos).mpr hle
      calc (List.countP (fun s => wbSearch t s) skills : ℚ) / (skills.length : ℚ) * 100
          ≤ 1 * 100 := by nlinarith
        _ = 100 := by norm_num

theorem C10_score_matched_consistent_witness :
    score_resume (strCodes "Experienced in Python and SQL")
        [strCodes "python", strCodes "sql", strCodes "project management"]
      = 100 * ((matched_skills (strCodes "Experienced in Python and SQL")
            [strCodes "python", strCodes "sql", strCodes "project management"]).length : ℚ)
          / (3 : ℚ) :=
  (C10_score_matched_consistent (strCodes "Experienced in Python and SQL")
      [strCodes "python", strCodes "sql", strCodes "project management"]).1 (by decide)

/-! ## Highlighting -/

theorem wbMatchAt_false_of_search_false {t s : List Nat}
    (h : wbSearch t s = false) : ∀ i, wbMatchAt t s i = false := by
  intro i
  by_cases hi : i < t.length + 1
  · rw [wbSearch, List.any_eq_false] at h
    simpa using h i (List.mem_range.mpr hi)
  · have hlen : t.length < i := by omega
    unfold wbMatchAt
    have hb : boundaryAt t i = false := by
      unfold boundaryAt
      cases i with
      | zero => omega
      | succ j =>
        have h1 : wordAt t j = false := by
          unfold wordAt
          rw [List.get?_eq_none.mpr (by omega)]
        have h2 : wordAt t (j + 1) = false := by
          unfold wordAt
          rw [List.get?_eq_none.mpr (by omega)]
        rw [prevWord, h1, h2]
        rfl
    rw [hb]
    rfl

theorem subScan_no_match {t s : List Nat} (pre post : List Nat)
    (h : ∀ i, wbMatchAt t s i = false) :
    ∀ fuel i, t.length ≤ fuel + i → subScan t s pre post fuel i = List.drop i t := by
  intro fuel
  induction fuel with
  | zero =>
    intro i hi
    rw [subScan, List.drop_eq_nil_of_le (by omega)]
  | succ fuel ih =>
    intro i hi
    rw [subScan]
    split_ifs with h1 h2
    · rw [h i] at h2
      exact absurd h2 (by simp)
    · rw [ih (i + 1) (by omega), List.drop_eq_getElem_cons h1]
      rfl
    · rw [List.drop_eq_nil_of_le (by omega)]

theorem re_sub_no_match {t s : List Nat} (pre post : List Nat)
    (h : wbSearch t s = false) : re_sub s pre post t = t := by
  unfold re_sub
  split_ifs with h1
  · rfl
  · rw [subScan_no_match pre post (wbMatchAt_false_of_search_false h) t.length 0 (by omega)]
    rfl

theorem mem_insertLenDesc {x a : List Nat} {l : List (List Nat)} :
    x ∈ insertLenDesc a l ↔ x = a ∨ x ∈ l := by
  induction l with
  | nil => simp [insertLenDesc]
  | cons y ys ih =>
    rw [insertLenDesc]
    split_ifs with h
    · simp
    · simp only [List.mem_cons, ih]
      tauto

theorem mem_sortLenDesc {x : List Nat} {l : List (List Nat)} :
    x ∈ sortLenDesc l ↔ x ∈ l := by
  induction l with
  | nil => simp [sortLenDesc]
  | cons y ys ih =>
    rw [sortLenDesc, mem_insertLenDesc, ih]
    simp

theorem foldl_re_sub_fixed (l : List (List Nat)) (H : List Nat)
    (h : ∀ s ∈ l, re_sub s markPre markPost H = H) :
    l.foldl (fun t s => re_sub s markPre markPost t) H = H := by
  induction l with
  | nil => rfl
  | cons s l ih =>
    rw [List.foldl_cons, h s (List.mem_cons_self s l)]
    exact ih (fun x hx => h x (List.mem_cons_of_mem s hx))

theorem wbMatchAt_lt {t s : List Nat} {j : Nat} (hs : s ≠ [])
    (h : wbMatchAt t s j = true) : j < t.length := by
  unfold wbMatchAt at h
  simp only [Bool.and_eq_true] at h
  have hci := h.1.2
  by_contra hc
  rw [List.drop_eq_nil_of_le (by omega)] at hci
  rcases s with _ | ⟨a, s2⟩
  · exact hs rfl
  · rw [ciStarts] at hci
    exact Bool.false_ne_true hci

theorem subScan_length_ge {t s : List Nat} (pre post : List Nat) (hs : s ≠ []) :
    ∀ fuel i, t.length ≤ fuel + i →
      t.length - i ≤ (subScan t s pre post fuel i).length := by
  intro fuel
  induction fuel with
  | zero =>
    intro i hi
    rw [subScan]
    simp only [List.length_nil]
    omega
  | succ fuel ih =>
    intro i hi
    rw [subScan]
    split_ifs with h1 h2
    · have hci : ciStarts s (List.drop i t) = true := by
        unfold wbMatchAt at h2
        simp only [Bool.and_eq_true] at h2
        exact h2.1.2
      have hslen : s.length ≤ t.length - i := by
        have := ((ciStarts_iff s (List.drop i t)).mp hci).1
        rw [List.length_drop] at this
        exact this
      have h1s : 1 ≤ s.length := List.length_pos.mpr hs
      have hmax : Nat.max 1 s.length = s.length := Nat.max_eq_right h1s
      rw [hmax]
      have hrec := ih (i + s.length) (by omega)
      simp only [List.length_append, List.length_take, List.length_drop]
      omega
    · have hrec := ih (i + 1) (by omega)
      simp only [List.length_cons]
      omega
    · simp only [List.length_nil]
      omega

theorem subScan_length_gt {t s : List Nat} (pre post : List Nat) (hs : s ≠ []) :
    ∀ fuel i, t.length ≤ fuel + i → (∃ j, i ≤ j ∧ wbMatchAt t s j = true) →
      t.length - i + pre.length + post.length ≤ (subScan t s pre post fuel i).length := by
  intro fuel
  induction fuel with
  | zero =>
    rintro i hi ⟨j, hij, hj⟩
    have := wbMatchAt_lt hs hj
    omega
  | succ fuel ih =>
    rintro i hi ⟨j, hij, hj⟩
    have hjlt : j < t.length := wbMatchAt_lt hs hj
    rw [subScan, dif_pos (show i < t.length by omega)]
    by_cases hm : wbMatchAt t s i = true
    · rw [if_pos hm]
      have hci : ciStarts s (List.drop i t) = true := by
        unfold wbMatchAt at hm
        simp only [Bool.and_eq_true] at hm
        exact hm.1.2
      have hslen : s.length ≤ t.length - i := by
        have := ((ciStarts_iff s (List.drop i t)).mp hci).1
        rw [List.length_drop] at this
        exact this
      have h1s : 1 ≤ s.length := List.length_pos.mpr hs
      have hmax : Nat.max 1 s.length = s.length := Nat.max_eq_right h1s
      rw [hmax]
      have hfuel : t.length ≤ fuel + (i + s.length) := by omega
      have hrec := subScan_length_ge pre post hs fuel (i + s.length) hfuel
      simp only [List.length_append, List.length_take, List.length_drop]
      omega
    · rw [if_neg hm]
      have hij2 : i + 1 ≤ j := by
        rcases Nat.eq_or_lt_of_le hij with rfl | h
        · exact absurd hj hm
        · omega
      have hfuel : t.length ≤ fuel + (i + 1) := by omega
      have hrec := ih (i + 1) hfuel ⟨j, hij2, hj⟩
      simp only [List.length_cons]
      omega

theorem re_sub_length_ge (s t : List Nat) :
    t.length ≤ (re_sub s markPre markPost t).length := by
  rw [re_sub]
  split_ifs with h
  · exact le_refl _
  · have hs : s ≠ [] := by simpa [List.isEmpty_iff] using h
    have hfuel : t.length ≤ t.length + 0 := by omega
    have := subScan_length_ge markPre markPost hs t.length 0 hfuel
    omega

theorem re_sub_length_gt {t s : List Nat} (hs : s ≠ []) (h : wbSearch t s = true) :
    t.length < (re_sub s markPre markPost t).length := by
  rw [re_sub, if_neg (by simpa [List.isEmpty_iff] using hs)]
  obtain ⟨j, hjmem, hj⟩ := List.any_eq_true.mp h
  have hfuel : t.length ≤ t.length + 0 := by omega
  have := subScan_length_gt markPre markPost hs t.length 0 hfuel
    ⟨j, Nat.zero_le j, hj⟩
  have hpre : 0 < markPre.length := by decide
  omega

theorem foldl_re_sub_length_ge (l : List (List Nat)) (H : List Nat) :
    H.length ≤ (l.foldl (fun t s => re_sub s markPre markPost t) H).length := by
  induction l generalizing H with
  | nil => exact le_refl _
  | cons s l ih =>
    rw [List.foldl_cons]
    calc H.length ≤ (re_sub s markPre markPost H).length := re_sub_length_ge s H
      _ ≤ _ := ih _

theorem foldl_re_sub_changes (l : List (List Nat)) (H : List Nat)
    (hnil : [] ∉ l) (hex : ∃ s ∈ l, wbSearch H s = true) :
    H.length < (l.foldl (fun t s => re_sub s markPre markPost t) H).length := by
  induction l with
  | nil =>
    obtain ⟨s, hs, -⟩ := hex
    exact absurd hs (List.not_mem_nil s)
  | cons s l ih =>
    rw [List.foldl_cons]
    by_cases hm : wbSearch H s = true
    · have hs : s ≠ [] := by
        intro hc
        exact hnil (hc ▸ List.mem_cons_self s l)
      calc H.length < (re_sub s markPre markPost H).length := re_sub_length_gt hs hm
        _ ≤ _ := foldl_re_sub_length_ge l _
    · rw [re_sub_no_match markPre markPost (Bool.not_eq_true _ ▸ hm)]
      apply ih
      · intro hc
        exact hnil (List.mem_cons_of_mem s hc)
      · obtain ⟨s0, hs0mem, hs0⟩ := hex
        rcases List.mem_cons.mp hs0mem with rfl | hmem
        · exact absurd hs0 hm
        · exact ⟨s0, hmem, hs0⟩

/-- Claim C3 counterexample: highlighting is not idempotent on the
marker syntax; re-highlighting the once-highlighted text "python"
with the same one-skill set wraps a second marker pair around the
same span, because the marker delimiters are non-word characters and
the wrapped word still sits between word boundaries. -/
theorem C3_counterexample :
    highlight_text (highlight_text (strCodes "python") [strCodes "python"]) [strCodes "python"]
      ≠ highlight_text (strCodes "python") [strCodes "python"] := by
  decide

/-- Claim C3 (amended): highlighting is not idempotent on the marker
syntax in general.  For every text and every skill set free of the
empty string (the program only produces skills of length above 1), a
second application of `highlight_text` with the same skill set
returns the once-highlighted text unchanged if and only if no skill
of the set still has a case-insensitive word-boundary match in that
once-highlighted text; whenever some skill still matches, the second
application differs. -/
theorem C3_highlight_idem_amended (t : List Nat) (skills : List (List Nat))
    (hnil : [] ∉ skills) :
    highlight_text (highlight_text t skills) skills = highlight_text t skills
      ↔ ∀ s ∈ skills, wbSearch (highlight_text t skills) s = false := by
  constructor
  · intro heq s hs
    by_contra hc
    rw [Bool.not_eq_false] at hc
    have hlt : (highlight_text t skills).length
        < (highlight_text (highlight_text t skills) skills).length := by
      rw [highlight_text]
      apply foldl_re_sub_changes
      · intro hmem
        exact hnil (mem_sortLenDesc.mp hmem)
      · exact ⟨s, mem_sortLenDesc.mpr hs, hc⟩
    rw [heq] at hlt
    exact absurd hlt (lt_irrefl _)
  · intro h
    rw [highlight_text]
    apply foldl_re_sub_fixed
    intro s hs
    exact re_sub_no_match markPre markPost (h s (mem_sortLenDesc.mp hs))

theorem C3_highlight_idem_amended_witness :
    highlight_text (highlight_text (strCodes "hello world") [strCodes "xyz"]) [strCodes "xyz"]
      = highlight_text (strCodes "hello world") [strCodes "xyz"] :=
  (C3_highlight_idem_amended (strCodes "hello world") [strCodes "xyz"] (by decide)).mpr
    (by decide)

/-! ## Skill extraction -/

theorem lowN_idem (n : Nat) : lowN (lowN n) = lowN n := by
  unfold lowN
  split_ifs <;> omega

theorem lowerStr_idem (s : List Nat) : lowerStr (lowerStr s) = lowerStr s := by
  unfold lowerStr
  rw [List.map_map]
  exact List.map_congr_left (fun x _ => lowN_idem x)

theorem lowerStr_length (s : List Nat) : (lowerStr s).length = s.length :=
  List.length_map s lowN

/-- Claim C9: every string produced by `extract_skills` is lowercase,
has length above 1 (only candidates longer than one character are
kept), and the result has no duplicates. -/
theorem C9_extract_skills_props (doc : SpacyDoc) :
    (extract_skills doc).Nodup
    ∧ ∀ x ∈ extract_skills doc, lowerStr x = x ∧ 1 < x.length := by
  refine ⟨List.nodup_dedup _, ?_⟩
  intro x hx
  rw [extract_skills, List.mem_dedup, List.mem_append] at hx
  rcases hx with hx | hx
  · rw [List.mem_map] at hx
    obtain ⟨c, hc, rfl⟩ := hx
    rw [List.mem_filter] at hc
    have hlen : 1 < c.length := by simpa using hc.2
    exact ⟨lowerStr_idem c, by rw [lowerStr_length]; exact hlen⟩
  · rw [List.mem_map] at hx
    obtain ⟨tk, htk, rfl⟩ := hx
    rw [List.mem_filter] at htk
    have hlen : 1 < tk.text.length := by
      have := htk.2
      simp only [Bool.and_eq_true, decide_eq_true_eq] at this
      exact this.2
    exact ⟨lowerStr_idem tk.text, by rw [lowerStr_length]; exact hlen⟩

theorem C9_extract_skills_props_witness :
    lowerStr (strCodes "python") = strCodes "python" ∧ 1 < (strCodes "python").length :=
  (C9_extract_skills_props
      ⟨[strCodes "Python"], [⟨strCodes "SQL", Pos.propn⟩]⟩).2
    (strCodes "python") (by decide)

/-! ## Runs of characters -/

theorem runLen_le (p : Nat → Bool) : ∀ l : List Nat, runLen p l ≤ l.length := by
  intro l
  induction l with
  | nil => simp [runLen]
  | cons c t ih =>
    rw [runLen]
    split_ifs with h
    · simpa using ih
    · simp

theorem runLen_take_all (p : Nat → Bool) :
    ∀ l : List Nat, ∀ x ∈ List.take (runLen p l) l, p x = true := by
  intro l
  induction l with
  | nil => simp
  | cons c t ih =>
    rw [runLen]
    split_ifs with h
    · intro x hx
      rw [List.take_succ_cons, List.mem_cons] at hx
      rcases hx with rfl | hx
      · exact h
      · exact ih x hx
    · simp

theorem runLen_prefix_ge (p : Nat → Bool) :
    ∀ (a rest : List Nat), (∀ x ∈ a, p x = true) → a.length ≤ runLen p (a ++ rest) := by
  intro a
  induction a with
  | nil => simp
  | cons c a ih =>
    intro rest h
    rw [List.cons_append, runLen, if_pos (h c (List.mem_cons_self c a))]
    have := ih rest (fun x hx => h x (List.mem_cons_of_mem c hx))
    simpa using this

theorem runLen_all_stop (p : Nat → Bool) :
    ∀ (a : List Nat) (x : Nat) (r : List Nat), (∀ y ∈ a, p y = true) → p x = false →
      runLen p (a ++ x :: r) = a.length := by
  intro a
  induction a with
  | nil =>
    intro x r _ hx
    rw [List.nil_append, runLen, if_neg (by simp [hx])]
    rfl
  | cons c a ih =>
    intro x r h hx
    rw [List.cons_append, runLen, if_pos (h c (List.mem_cons_self c a)),
      ih x r (fun y hy => h y (List.mem_cons_of_mem c hy)) hx]
    rfl

theorem mem_take_of_le {l : List Nat} {m n : Nat} (h : m ≤ n) :
    ∀ x ∈ List.take m l, x ∈ List.take n l := by
  intro x hx
  rw [show List.take m l = List.take m (List.take n l) by
    rw [List.take_take, Nat.min_eq_left h]] at hx
  exact List.take_subset m (List.take n l) hx

/-! ## E-mail extraction -/

theorem headIs_eq {c : Nat} {l : List Nat} (h : headIs c l = true) : ∃ r, l = c :: r := by
  cases l with
  | nil => simp [headIs] at h
  | cons x r =>
    rw [headIs, beq_iff_eq] at h
    exact ⟨r, by rw [h]⟩

theorem length_pos_of_drop_cons {l : List Nat} {n c : Nat} {r : List Nat}
    (h : List.drop n l = c :: r) : n < l.length := by
  by_contra hc
  rw [List.drop_eq_nil_of_le (by omega)] at h
  exact List.noConfusion h

theorem emailTail_spec (v : List Nat) :
    ∀ M k, (∀ x ∈ List.take M v, domainCode x = true) → emailTail v M = some k →
      (∃ b c, List.take k v = b ++ 46 :: c ∧ b ≠ [] ∧ (∀ x ∈ b, domainCode x = true)
        ∧ 2 ≤ c.length ∧ (∀ x ∈ c, letterCode x = true)) ∧ k ≤ v.length := by
  intro M
  induction M with
  | zero =>
    intro k _ hk
    rw [emailTail] at hk
    exact absurd hk (by simp)
  | succ m ih =>
    intro k hdom hk
    rw [emailTail] at hk
    split_ifs at hk with hcond
    · obtain ⟨h46, hlet⟩ := hcond
      obtain ⟨w2, hw2⟩ := headIs_eq h46
      have hmlt : m + 1 < v.length := length_pos_of_drop_cons hw2
      have hdw : List.drop (m + 1 + 1) v = w2 := by
        rw [← List.drop_drop, hw2, List.drop_succ_cons, List.drop_zero]
      rw [hdw] at hlet hk
      have hkval : m + 1 + 1 + runLen letterCode w2 = k := by
        injection hk
      have hw2len : w2.length = v.length - (m + 2) := by
        have := congrArg List.length hw2
        rw [List.length_drop, List.length_cons] at this
        omega
      have hRle : runLen letterCode w2 ≤ w2.length := runLen_le letterCode w2
      constructor
      · refine ⟨List.take (m + 1) v, List.take (runLen letterCode w2) w2, ?_, ?_, ?_, ?_, ?_⟩
        · rw [show k = (m + 1) + (runLen letterCode w2 + 1) by omega,
            List.take_add, hw2, List.take_succ_cons]
        · have : (List.take (m + 1) v).length = m + 1 := by
            rw [List.length_take]
            omega
          intro hnil
          rw [hnil] at this
          simp at this
        · exact hdom
        · rw [List.length_take]
          omega
        · exact runLen_take_all letterCode w2
      · omega
    · exact ih k (fun x hx => hdom x (mem_take_of_le (by omega) x hx)) hk

theorem emailTail_isSome (v : List Nat) (m0 : Nat) (hm0 : 1 ≤ m0)
    (h46 : headIs 46 (List.drop m0 v) = true)
    (hlet : 2 ≤ runLen letterCode (List.drop (m0 + 1) v)) :
    ∀ M, m0 ≤ M → (emailTail v M).isSome = true := by
  intro M
  induction M with
  | zero => omega
  | succ m ih =>
    intro hle
    rw [emailTail]
    split_ifs with hcond
    · rfl
    · rcases Nat.lt_or_ge m0 (m + 1) with hlt | hge
      · exact ih (by omega)
      · have heq : m0 = m + 1 := by omega
        rw [heq] at h46 hlet
        exact absurd ⟨h46, hlet⟩ hcond

theorem emailMatchLen_spec (u : List Nat) (n : Nat) (h : emailMatchLen u = some n) :
    IsEmail (List.take n u) ∧ n ≤ u.length := by
  rw [emailMatchLen] at h
  split_ifs at h with h0 h64
  · obtain ⟨k, hk, hkn⟩ := Option.map_eq_some'.mp h
    obtain ⟨w, hw⟩ := headIs_eq h64
    have hllt : runLen localCode u < u.length := length_pos_of_drop_cons hw
    have hdw : List.drop (runLen localCode u + 1) u = w := by
      rw [← List.drop_drop, hw, List.drop_succ_cons, List.drop_zero]
    rw [hdw] at hk
    obtain ⟨⟨b, c, htake, hb0, hbd, hc2, hcl⟩, hkle⟩ :=
      emailTail_spec w (runLen domainCode w) k (runLen_take_all domainCode w) hk
    have hwlen : w.length = u.length - (runLen localCode u + 1) := by
      have := congrArg List.length hw
      rw [List.length_drop, List.length_cons] at this
      omega
    constructor
    · refine ⟨List.take (runLen localCode u) u, b, c, ?_, ?_, ?_, hb0, hbd, hc2, hcl⟩
      · rw [show n = runLen localCode u + (k + 1) by omega, List.take_add, hw,
          List.take_succ_cons, htake]
      · have : (List.take (runLen localCode u) u).length = runLen localCode u := by
          rw [List.length_take]
          omega
        intro hnil
        rw [hnil] at this
        simp at this
        omega
      · exact runLen_take_all localCode u
    · omega

theorem not_isEmail_nil : ¬ IsEmail [] := by
  rintro ⟨a, b, c, heq, ha0, -⟩
  have := congrArg List.length heq
  simp only [List.length_nil, List.length_append, List.length_cons] at this
  omega

theorem isEmail_isSome (u : List Nat) (n : Nat) (h : IsEmail (List.take n u)) :
    (emailMatchLen u).isSome = true := by
  obtain ⟨a, b, c, heq, ha0, hal, hb0, hbd, hc2, hcl⟩ := h
  have hu : u = a ++ 64 :: (b ++ 46 :: (c ++ List.drop n u)) := by
    conv_lhs => rw [← List.take_append_drop n u]
    rw [heq]
    simp [List.append_assoc]
  have hloc : localCode 64 = false := by decide
  have hl : runLen localCode u = a.length := by
    rw [hu]
    exact runLen_all_stop localCode a 64 _ hal hloc
  have h0 : ¬ runLen localCode u = 0 := by
    rw [hl]
    have := List.length_pos.mpr ha0
    omega
  have hdropl : List.drop (runLen localCode u) u = 64 :: (b ++ 46 :: (c ++ List.drop n u)) := by
    rw [hl]
    conv_lhs => rw [hu]
    exact List.drop_left a _
  have h64 : headIs 64 (List.drop (runLen localCode u) u) = true := by
    rw [hdropl]
    simp [headIs]
  have hv : List.drop (runLen localCode u + 1) u = b ++ 46 :: (c ++ List.drop n u) := by
    rw [← List.drop_drop, hdropl, List.drop_succ_cons, List.drop_zero]
  rw [emailMatchLen, if_neg h0, if_pos h64, Option.isSome_map']
  have h46 : headIs 46
      (List.drop b.length (List.drop (runLen localCode u + 1) u)) = true := by
    rw [hv, List.drop_left b _]
    simp [headIs]
  have hlet : 2 ≤ runLen letterCode
      (List.drop (b.length + 1) (List.drop (runLen localCode u + 1) u)) := by
    have hdd : List.drop (b.length + 1) (List.drop (runLen localCode u + 1) u)
        = c ++ List.drop n u := by
      rw [hv, ← List.drop_drop, List.drop_left b _, List.drop_succ_cons, List.drop_zero]
    rw [hdd]
    calc (2 : Nat) ≤ c.length := hc2
      _ ≤ runLen letterCode (c ++ List.drop n u) := runLen_prefix_ge letterCode c _ hcl
  have hM : b.length ≤ runLen domainCode (List.drop (runLen localCode u + 1) u) := by
    rw [hv]
    exact runLen_prefix_ge domainCode b _ hbd
  exact emailTail_isSome _ b.length (List.length_pos.mpr hb0) h46 hlet _ hM

theorem firstMatch_correct (f : List Nat → Option Nat) (P : List Nat → Prop)
    (hA : ∀ u n, f u = some n → P (List.take n u))
    (hB : ∀ u n, P (List.take n u) → (f u).isSome = true)
    (hnil : ¬ P []) :
    ∀ t, (firstMatch f t = none ∧ ∀ i m, ¬ P (List.take m (List.drop i t)))
      ∨ (∃ i n, firstMatch f t = some (List.take n (List.drop i t))
          ∧ P (List.take n (List.drop i t))
          ∧ ∀ j m, j < i → ¬ P (List.take m (List.drop j t))) := by
  intro t
  induction t with
  | nil =>
    left
    refine ⟨rfl, ?_⟩
    intro i m
    simp only [List.drop_nil, List.take_nil]
    exact hnil
  | cons c t ih =>
    cases hf : f (c :: t) with
    | some n =>
      right
      refine ⟨0, n, ?_, ?_, ?_⟩
      · rw [firstMatch, hf, List.drop_zero]
      · rw [List.drop_zero]
        exact hA _ _ hf
      · intro j m hj
        omega
    | none =>
      have hstep : firstMatch f (c :: t) = firstMatch f t := by
        rw [firstMatch, hf]
      have hzero : ∀ m, ¬ P (List.take m (c :: t)) := by
        intro m hP
        have := hB _ _ hP
        rw [hf] at this
        exact Bool.false_ne_true this
      rcases ih with ⟨h1, h2⟩ | ⟨i, n, h1, h2, h3⟩
      · left
        refine ⟨by rw [hstep, h1], ?_⟩
        intro i m
        cases i with
        | zero =>
          rw [List.drop_zero]
          exact hzero m
        | succ j =>
          rw [List.drop_succ_cons]
          exact h2 j m
      · right
        refine ⟨i + 1, n, ?_, ?_, ?_⟩
        · rw [hstep, List.drop_succ_cons]
          exact h1
        · rw [List.drop_succ_cons]
          exact h2
        · intro j m hj
          cases j with
          | zero =>
            rw [List.drop_zero]
            exact hzero m
          | succ j2 =>
            rw [List.drop_succ_cons]
            exact h3 j2 m (by omega)

/-- Claim C7: `extract_email` returns the first (leftmost) substring
matching the e-mail pattern (local part of permitted characters, `@`,
domain with at least one dot, a top-level segment of 2 or more
letters) when one exists, and the sentinel "Not found" when the text
contains no such pattern. -/
theorem C7_extract_email_correct (t : List Nat) :
    (extract_email t = notFound ∧ ∀ i m, ¬ IsEmail (List.take m (List.drop i t)))
    ∨ (∃ i n, extract_email t = List.take n (List.drop i t)
        ∧ IsEmail (List.take n (List.drop i t))
        ∧ ∀ j m, j < i → ¬ IsEmail (List.take m (List.drop j t))) := by
  have h := firstMatch_correct emailMatchLen IsEmail
    (fun u n hn => (emailMatchLen_spec u n hn).1)
    isEmail_isSome not_isEmail_nil t
  rcases h with ⟨h1, h2⟩ | ⟨i, n, h1, h2, h3⟩
  · left
    exact ⟨by rw [extract_email, h1]; rfl, h2⟩
  · right
    exact ⟨i, n, by rw [extract_email, h1]; rfl, h2, h3⟩

/-! ## Phone extraction -/

theorem headDigit_eq {l : List Nat} (h : headDigit l = true) :
    ∃ y rest, l = y :: rest ∧ digitCode y = true := by
  cases l with
  | nil => simp [headDigit] at h
  | cons y rest => exact ⟨y, rest, rfl, h⟩

theorem phoneTail_spec (r : List Nat) :
    ∀ K j, phoneTail r K = some j →
      ∃ k0, j = k0 + 1 ∧ 7 ≤ k0 ∧ k0 ≤ K ∧ headDigit (List.drop k0 r) = true := by
  intro K
  induction K with
  | zero =>
    intro j hj
    rw [phoneTail] at hj
    exact absurd hj (by simp)
  | succ k ih =>
    intro j hj
    rw [phoneTail] at hj
    split_ifs at hj with hc
    · obtain ⟨h7, hd⟩ := hc
      refine ⟨k + 1, ?_, h7, le_refl _, hd⟩
      injection hj
      omega
    · obtain ⟨k0, h1, h2, h3, h4⟩ := ih j hj
      exact ⟨k0, h1, h2, by omega, h4⟩

theorem phoneCore_spec (w : List Nat) (n : Nat) (h : phoneCore w = some n) :
    (∃ x m y, List.take n w = x :: (m ++ [y]) ∧ digitCode x = true ∧ digitCode y = true
      ∧ 7 ≤ m.length ∧ (∀ c ∈ m, phoneCode c = true)) ∧ n ≤ w.length := by
  rw [phoneCore] at h
  split_ifs at h with hd
  obtain ⟨j, hj, hjn⟩ := Option.map_eq_some'.mp h
  cases w with
  | nil => simp [headDigit] at hd
  | cons x r =>
    rw [List.drop_one, List.tail_cons] at hj
    obtain ⟨k0, hjk, h7, hkle, hkd⟩ := phoneTail_spec r (runLen phoneCode r) j hj
    obtain ⟨y, rest, hyr, hy⟩ := headDigit_eq hkd
    have hk0lt : k0 < r.length := length_pos_of_drop_cons hyr
    have htake : List.take (k0 + 1) r = List.take k0 r ++ [y] := by
      rw [List.take_add, hyr, List.take_succ_cons, List.take_zero]
    constructor
    · refine ⟨x, List.take k0 r, y, ?_, hd, hy, ?_, ?_⟩
      · rw [show n = (k0 + 1) + 1 by omega, List.take_succ_cons, htake]
      · rw [List.length_take]
        omega
      · intro c hc
        exact runLen_take_all phoneCode r c (mem_take_of_le hkle c hc)
    · rw [List.length_cons]
      omega

theorem phoneTail_isSome (r : List Nat) (k0 : Nat) (h7 : 7 ≤ k0)
    (hd : headDigit (List.drop k0 r) = true) :
    ∀ K, k0 ≤ K → (phoneTail r K).isSome = true := by
  intro K
  induction K with
  | zero => omega
  | succ k ih =>
    intro hle
    rw [phoneTail]
    split_ifs with hc
    · rfl
    · rcases Nat.lt_or_ge k0 (k + 1) with hlt | hge
      · exact ih (by omega)
      · have heq : k0 = k + 1 := by omega
        rw [heq] at h7 hd
        exact absurd ⟨h7, hd⟩ hc

theorem phoneCore_isSome (x : Nat) (m : List Nat) (y : Nat) (rest : List Nat)
    (hx : digitCode x = true) (hy : digitCode y = true)
    (h7 : 7 ≤ m.length) (hm : ∀ c ∈ m, phoneCode c = true) :
    (phoneCore (x :: (m ++ y :: rest))).isSome = true := by
  have hdig : headDigit (x :: (m ++ y :: rest)) = true := hx
  rw [phoneCore, if_pos hdig, Option.isSome_map', List.drop_one, List.tail_cons]
  apply phoneTail_isSome _ m.length h7
  · rw [List.drop_left m _]
    exact hy
  · exact runLen_prefix_ge phoneCode m _ hm

theorem phoneMatchLen_spec (u : List Nat) (n : Nat) (h : phoneMatchLen u = some n) :
    IsPhone (List.take n u) ∧ n ≤ u.length := by
  rw [phoneMatchLen] at h
  split_ifs at h with h43
  · obtain ⟨r, hr⟩ := headIs_eq h43
    obtain ⟨n2, hn2, hneq⟩ := Option.map_eq_some'.mp h
    rw [hr, List.drop_one, List.tail_cons] at hn2
    obtain ⟨⟨x, m, y, htake, hx, hy, h7, hm⟩, hle⟩ := phoneCore_spec r n2 hn2
    constructor
    · refine ⟨[43], x, m, y, ?_, Or.inr rfl, hx, hy, h7, hm⟩
      rw [hr, show n = n2 + 1 by omega, List.take_succ_cons, htake]
      rfl
    · rw [hr, List.length_cons]
      omega
  · obtain ⟨⟨x, m, y, htake, hx, hy, h7, hm⟩, hle⟩ := phoneCore_spec u n h
    exact ⟨⟨[], x, m, y, by rw [htake]; rfl, Or.inl rfl, hx, hy, h7, hm⟩, hle⟩

theorem not_isPhone_nil : ¬ IsPhone [] := by
  rintro ⟨p, x, m, y, heq, -, -⟩
  have := congrArg List.length heq
  simp only [List.length_nil, List.length_append, List.length_cons] at this
  omega

theorem isPhone_isSome (u : List Nat) (n : Nat) (h : IsPhone (List.take n u)) :
    (phoneMatchLen u).isSome = true := by
  obtain ⟨p, x, m, y, heq, hp, hx, hy, h7, hm⟩ := h
  have hu : u = p ++ x :: (m ++ y :: List.drop n u) := by
    conv_lhs => rw [← List.take_append_drop n u]
    rw [heq]
    simp [List.append_assoc]
  rcases hp with rfl | rfl
  · rw [List.nil_append] at hu
    have hne43 : ¬ headIs 43 u = true := by
      rw [hu, headIs, beq_iff_eq]
      intro hc
      rw [hc] at hx
      exact absurd hx (by decide)
    rw [phoneMatchLen, if_neg hne43]
    rw [show phoneCore u = phoneCore (x :: (m ++ y :: List.drop n u)) by rw [← hu]]
    rw [phoneCore_isSome x m y _ hx hy h7 hm]
  · have h43 : headIs 43 u = true := by
      rw [hu]
      simp [headIs]
    have hdrop1 : List.drop 1 u = x :: (m ++ y :: List.drop n u) := by
      conv_lhs => rw [hu]
      rw [List.singleton_append, List.drop_one, List.tail_cons]
    rw [phoneMatchLen, if_pos h43, Option.isSome_map', hdrop1]
    exact phoneCore_isSome x m y _ hx hy h7 hm

/-- Claim C8 counterexample: the text "12 34-56 78" contains no run
of 9 or more consecutive digits (its digit runs have length 2), yet
`extract_phone` does not return the sentinel: digits interleaved with
spaces and hyphens match the phone pattern.  This refutes the claim
that "Not found" is returned whenever the text contains no digit run
of sufficient length. -/
theorem C8_counterexample :
    extract_phone (strCodes "12 34-56 78") ≠ notFound
    ∧ ¬ ∃ i, (List.take 9 (List.drop i (strCodes "12 34-56 78"))).length = 9
        ∧ ∀ x ∈ List.take 9 (List.drop i (strCodes "12 34-56 78")), digitCode x = true := by
  constructor
  · decide
  · rintro ⟨i, hlen, hdig⟩
    have hi : i ≤ 2 := by
      rw [List.length_take, List.length_drop] at hlen
      have : (strCodes "12 34-56 78").length = 11 := by decide
      omega
    interval_cases i
    · exact absurd hdig (by decide)
    · exact absurd hdig (by decide)
    · exact absurd hdig (by decide)

/-- Claim C8 (amended): `extract_phone` returns the first (leftmost)
substring matching the phone pattern (optional leading `+`, then
digits, spaces and hyphens beginning and ending with a digit, at
least 9 characters excluding the optional `+`), and returns the
sentinel "Not found" exactly when no substring of the text matches
that pattern; a long enough run of consecutive digits is sufficient
but not necessary for a match. -/
theorem C8_extract_phone_correct (t : List Nat) :
    (extract_phone t = notFound ∧ ∀ i m, ¬ IsPhone (List.take m (List.drop i t)))
    ∨ (∃ i n, extract_phone t = List.take n (List.drop i t)
        ∧ IsPhone (List.take n (List.drop i t))
        ∧ ∀ j m, j < i → ¬ IsPhone (List.take m (List.drop j t))) := by
  have h := firstMatch_correct phoneMatchLen IsPhone
    (fun u n hn => (phoneMatchLen_spec u n hn).1)
    isPhone_isSome not_isPhone_nil t
  rcases h with ⟨h1, h2⟩ | ⟨i, n, h1, h2, h3⟩
  · left
    exact ⟨by rw [extract_phone, h1]; rfl, h2⟩
  · right
    exact ⟨i, n, by rw [extract_phone, h1]; rfl, h2, h3⟩


/-! ## Escaping and pattern compilation -/

theorem parseRegex_escaped (x : Nat) (r : List Nat) :
    parseRegex (92 :: x :: r)
      = if x = 98 then (parseRegex r).map (fun ts => RTok.wb :: ts)
        else if isWordCode x then none
        else (parseRegex r).map (fun ts => RTok.lit x :: ts) := rfl

theorem parseRegex_plain (x : Nat) (r : List Nat) (h92 : ¬ x = 92) (h40 : ¬ x = 40)
    (h41 : ¬ x = 41) :
    parseRegex (x :: r)
      = if metaCode x then none
        else (parseRegex r).map (fun ts => RTok.lit x :: ts) := by
  rw [parseRegex.eq_def]
  dsimp only
  rw [if_neg h92, if_neg h40, if_neg h41]

theorem pySpecial_props {x : Nat} (h : pySpecial x = true) :
    ¬ x = 98 ∧ isWordCode x = false := by
  rw [pySpecial] at h
  simp only [Bool.or_eq_true, beq_iff_eq] at h
  constructor
  · omega
  · rw [← Bool.not_eq_true]
    intro hw
    rw [isWordCode] at hw
    simp only [Bool.or_eq_true, Bool.and_eq_true, decide_eq_true_eq, beq_iff_eq] at hw
    omega

theorem notSpecial_props {x : Nat} (h : pySpecial x = false) :
    ¬ x = 92 ∧ ¬ x = 40 ∧ ¬ x = 41 ∧ metaCode x = false := by
  have h1 : ¬ pySpecial x = true := by
    rw [h]
    exact Bool.false_ne_true
  rw [pySpecial] at h1
  simp only [Bool.or_eq_true, beq_iff_eq] at h1
  refine ⟨by omega, by omega, by omega, ?_⟩
  rw [← Bool.not_eq_true]
  intro hm
  rw [metaCode] at hm
  simp only [Bool.or_eq_true, beq_iff_eq] at hm
  omega

theorem reEscape_cons (x : Nat) (s : List Nat) :
    reEscape (x :: s) = (if pySpecial x then [92, x] else [x]) ++ reEscape s := by
  rw [reEscape, reEscape, List.flatMap_cons]

theorem parseRegex_gopen (r : List Nat) :
    parseRegex (40 :: r) = (parseRegex r).map (fun ts => RTok.gopen :: ts) := by
  rw [parseRegex.eq_def]
  dsimp only
  norm_num

theorem parse_reEscape : ∀ s rest : List Nat,
    parseRegex (reEscape s ++ rest)
      = (parseRegex rest).map (fun ts => s.map RTok.lit ++ ts) := by
  intro s
  induction s with
  | nil =>
    intro rest
    rw [reEscape, List.flatMap_nil, List.nil_append]
    cases parseRegex rest <;> simp
  | cons x s ih =>
    intro rest
    rw [reEscape_cons, List.append_assoc]
    by_cases hx : pySpecial x = true
    · rw [if_pos hx]
      obtain ⟨h98, hword⟩ := pySpecial_props hx
      rw [show ([92, x] : List Nat) ++ (reEscape s ++ rest)
          = 92 :: x :: (reEscape s ++ rest) from rfl]
      rw [parseRegex_escaped, if_neg h98, hword, if_neg Bool.false_ne_true, ih rest]
      cases parseRegex rest <;> simp
    · rw [if_neg hx]
      obtain ⟨h92, h40, h41, hmeta⟩ :=
        notSpecial_props (Bool.not_eq_true (pySpecial x) ▸ hx)
      rw [show ([x] : List Nat) ++ (reEscape s ++ rest) = x :: (reEscape s ++ rest) from rfl]
      rw [parseRegex_plain x _ h92 h40 h41, hmeta, if_neg Bool.false_ne_true, ih rest]
      cases parseRegex rest <;> simp

theorem parse_scorePattern (s : List Nat) :
    parseRegex (scorePattern s) = some (RTok.wb :: (s.map RTok.lit ++ [RTok.wb])) := by
  rw [scorePattern]
  rw [show ([92, 98] : List Nat) ++ reEscape s ++ [92, 98]
      = 92 :: 98 :: (reEscape s ++ [92, 98]) by simp]
  rw [parseRegex_escaped, if_pos rfl, parse_reEscape]
  rfl

theorem parse_highlightPattern (s : List Nat) :
    parseRegex (highlightPattern s)
      = some (RTok.wb :: RTok.gopen :: (s.map RTok.lit ++ [RTok.gclose, RTok.wb])) := by
  rw [highlightPattern]
  rw [show ([92, 98, 40] : List Nat) ++ reEscape s ++ ([41, 92, 98] : List Nat)
      = 92 :: 98 :: 40 :: (reEscape s ++ [41, 92, 98]) by simp]
  rw [parseRegex_escaped, if_pos rfl, parseRegex_gopen, parse_reEscape]
  rfl

theorem tokMatchAt_lits (t : List Nat) : ∀ (s : List Nat) (i : Nat) (rest : List RTok),
    tokMatchAt t i (s.map RTok.lit ++ rest)
      = (ciStarts s (List.drop i t) && tokMatchAt t (i + s.length) rest) := by
  intro s
  induction s with
  | nil =>
    intro i rest
    simp [ciStarts]
  | cons a s ih =>
    intro i rest
    rw [List.map_cons, List.cons_append, tokMatchAt]
    cases hg : t.get? i with
    | none =>
      have hlen : t.length ≤ i := by
        rw [← List.get?_eq_none]
        exact hg
      rw [List.drop_eq_nil_of_le hlen, ciStarts]
      rfl
    | some b =>
      have hlt : i < t.length := by
        by_contra hc
        rw [List.get?_eq_none.mpr (by omega)] at hg
        exact Option.noConfusion hg
      have hdrop : List.drop i t = b :: List.drop (i + 1) t := by
        rw [List.drop_eq_getElem_cons hlt]
        have : t[i] = b := by
          have := List.get?_eq_getElem? t i
          rw [hg, List.getElem?_eq_getElem hlt] at this
          exact (Option.some.injEq _ _ ▸ this.symm)
        rw [this]
      rw [hdrop, ciStarts, ih (i + 1) rest, List.length_cons,
        show i + (s.length + 1) = i + 1 + s.length by omega, Bool.and_assoc]

theorem tokMatchAt_score (t s : List Nat) (i : Nat) :
    tokMatchAt t i (RTok.wb :: (s.map RTok.lit ++ [RTok.wb])) = wbMatchAt t s i := by
  rw [tokMatchAt, tokMatchAt_lits, wbMatchAt]
  rw [show tokMatchAt t (i + s.length) [RTok.wb]
      = (boundaryAt t (i + s.length) && true) from rfl]
  rw [Bool.and_true, Bool.and_assoc]

theorem tokMatchAt_highlight (t s : List Nat) (i : Nat) :
    tokMatchAt t i (RTok.wb :: RTok.gopen :: (s.map RTok.lit ++ [RTok.gclose, RTok.wb]))
      = wbMatchAt t s i := by
  rw [tokMatchAt, tokMatchAt, tokMatchAt_lits, wbMatchAt]
  rw [show tokMatchAt t (i + s.length) [RTok.gclose, RTok.wb]
      = (boundaryAt t (i + s.length) && true) from rfl]
  rw [Bool.and_true, Bool.and_assoc]

/-- Claim C4: for every skill string, including those containing
regex metacharacters, both patterns built by the program (the search
pattern of `score_resume` and the substitution pattern of
`highlight_text`) compile — the escaped skill never fails or alters
pattern compilation — and the compiled pattern matches exactly the
case-insensitive word-boundary-delimited literal occurrences of the
skill, never treating its text as pattern syntax. -/
theorem C4_escape_literal_safe (skill t : List Nat) :
    (∃ ts, parseRegex (scorePattern skill) = some ts ∧ tokSearch t ts = wbSearch t skill)
    ∧ (∃ ts, parseRegex (highlightPattern skill) = some ts
        ∧ tokSearch t ts = wbSearch t skill) := by
  constructor
  · refine ⟨_, parse_scorePattern skill, ?_⟩
    rw [tokSearch, wbSearch]
    congr 1
    funext i
    exact tokMatchAt_score t skill i
  · refine ⟨_, parse_highlightPattern skill, ?_⟩
    rw [tokSearch, wbSearch]
    congr 1
    funext i
    exact tokMatchAt_highlight t skill i
